import Mathlib

/-!
Shallow embedding of the Monero base58 encoder/decoder (`src/base58.rs` of
the `base58-monero` crate) and proofs of the specification claims.

Bytes (Rust `u8`) are modelled as `Nat` together with `< 256` hypotheses
where the `u8` type bound matters; strings (`&str`, processed by the source
as `as_bytes()`, all characters being ASCII) are modelled as `List Char`.
Machine-integer wrap-around (`u64` shifts, `Wrapping<u128>`) is modelled
with explicit `% 2 ^ 64` / `% 2 ^ 128` reductions.
-/

namespace Base58

set_option maxHeartbeats 1000000
set_option maxRecDepth 100000

/-- `BASE58_CHARS`: the base58 alphabet constant of the source, which does not
contain visually similar characters. -/
def BASE58_CHARS : List Char :=
  "123456789ABCDEFGHJKLMNPQRSTUVWXYZabcdefghijkmnopqrstuvwxyz".toList

/-- `ENCODED_BLOCK_SIZES`: encoded block size for each raw block size `0..=8`. -/
def ENCODED_BLOCK_SIZES : List Nat := [0, 2, 3, 5, 6, 7, 9, 10, 11]

/-- `FULL_BLOCK_SIZE`: maximum size of a raw block to encode. -/
def FULL_BLOCK_SIZE : Nat := 8

/-- `FULL_ENCODED_BLOCK_SIZE`: size of an encoded 8-byte block
(`ENCODED_BLOCK_SIZES[FULL_BLOCK_SIZE]`, i.e. 11). -/
def FULL_ENCODED_BLOCK_SIZE : Nat := ENCODED_BLOCK_SIZES.getD FULL_BLOCK_SIZE 0

/-- `CHECKSUM_SIZE`: size of the base58-check checksum (4 bytes). -/
def CHECKSUM_SIZE : Nat := 4

/-- The `Error` enum of the source.  `Io` wraps an upstream `std::io::Error`,
an opaque cause which we model as an arbitrary `Nat` tag. -/
inductive Error where
  | InvalidBlockSize
  | InvalidSymbol
  | InvalidChecksum
  | Overflow
  | Io (cause : Nat)
  deriving DecidableEq

deriving instance DecidableEq for Except

/-- The hand-written `PartialEq for Error` implementation of the source: each
variant is compared with `matches!` against the other value, so the `Io`
variant compares by kind only and ignores the wrapped cause. -/
def errorEq (e other : Error) : Bool :=
  match e with
  | .InvalidBlockSize => match other with | .InvalidBlockSize => true | _ => false
  | .InvalidSymbol => match other with | .InvalidSymbol => true | _ => false
  | .InvalidChecksum => match other with | .InvalidChecksum => true | _ => false
  | .Overflow => match other with | .Overflow => true | _ => false
  | .Io _ => match other with | .Io _ => true | _ => false

/-- Model of `Iterator::position`: index of the first element satisfying the
predicate. -/
def position (p : α → Prop) [DecidablePred p] : List α → Option Nat
  | [] => none
  | x :: xs => if p x then some 0 else (position p xs).map (fun i => i + 1)

/-- Model of `slice::chunks(n)`: split a list into consecutive chunks of `n`
elements, the last chunk possibly shorter.  A fuel argument (initially the
length of the list) keeps the recursion structural so that the kernel can
evaluate the function. -/
def chunksGo (n : Nat) : Nat → List α → List (List α)
  | _, [] => []
  | 0, _ => []
  | fuel + 1, l => l.take n :: chunksGo n fuel (l.drop n)

/-- `slice::chunks(n)` over a whole list. -/
def chunks (n : Nat) (l : List α) : List (List α) := chunksGo n l.length l

/-- `u8be_to_u64`: fold bytes into a `u64` big-endian accumulator
(`res = res << 8 | *b as u64`).  The `u64` shift discards high bits, hence the
`% 2 ^ 64`. -/
def u8be_to_u64 (data : List Nat) : Nat :=
  data.foldl (fun res b => ((res <<< 8) % 2 ^ 64) ||| b) 0

/-- The digit-emission loop of `encode_block`: the loop writes
`BASE58_CHARS[num % 58]` into the rightmost of the `k` slots, then repeats on
`num / 58` for the remaining `k - 1` slots to its left. -/
def b58digits : Nat → Nat → List Char
  | _, 0 => []
  | num, k + 1 => b58digits (num / 58) k ++ [BASE58_CHARS.getD (num % 58) '1']

/-- `encode_block`: encode a raw block of `1..=8` bytes into the full
11-character buffer.  The source pre-fills the buffer with `'1'` and writes
the `ENCODED_BLOCK_SIZES[len]` digits right-to-left starting at index 0, so
the result is the digit run followed by the untouched `'1'` padding. -/
def encode_block (data : List Nat) : Except Error (List Char) :=
  if data = [] ∨ FULL_BLOCK_SIZE < data.length then .error .InvalidBlockSize
  else
    let num := u8be_to_u64 data
    let size := ENCODED_BLOCK_SIZES.getD data.length 0
    .ok (b58digits num size ++ List.replicate (FULL_ENCODED_BLOCK_SIZE - size) '1')

/-- The `DecodedBlock` struct: a fixed 8-byte buffer and the number of
significant low-order bytes. -/
structure DecodedBlock where
  data : List Nat
  size : Nat
  deriving DecidableEq

/-- The accumulation fold of `decode_block`: iterate over the characters
(the caller passes the chunk reversed, matching `data.iter().rev()`),
looking each one up in the alphabet and accumulating
`res += order * digit; order = order * 58` with `order : Wrapping<u128>`
(hence the `% 2 ^ 128`); an unknown symbol aborts with `InvalidSymbol`.
`res : u128` cannot overflow here because the caller limits the chunk to 11
characters, so it is modelled as a plain `Nat`. -/
def decodeDigits : List Char → Nat → Nat → Except Error Nat
  | [], res, _ => .ok res
  | c :: rest, res, order =>
    match position (fun x => x = c) BASE58_CHARS with
    | some digit => decodeDigits rest (res + order * digit) ((order * 58) % 2 ^ 128)
    | none => .error .InvalidSymbol

/-- Model of `u64::to_be_bytes`: the 8 big-endian bytes of `n % 2 ^ 64`,
written as a recursion peeling the least significant byte. -/
def beBytes : Nat → Nat → List Nat
  | 0, _ => []
  | k + 1, n => beBytes k (n / 256) ++ [n % 256]

/-- `decode_block`: reject chunks longer than 11 characters, look the chunk
length up in `ENCODED_BLOCK_SIZES` to find the raw width `res_size`, fold the
characters (rightmost first) into `res`, reject `res` at or above the width's
maximum (`u64::MAX + 1` for width 8, `1 << (8 * res_size)` otherwise, the
`res_size > 8` case being unreachable), and return the 8-byte big-endian
buffer of `res as u64` with the significant width. -/
def decode_block (data : List Char) : Except Error DecodedBlock :=
  if FULL_ENCODED_BLOCK_SIZE < data.length then .error .InvalidBlockSize
  else
    match position (fun x => x = data.length) ENCODED_BLOCK_SIZES with
    | none => .error .InvalidBlockSize
    | some res_size =>
      match decodeDigits data.reverse 0 1 with
      | .error e => .error e
      | .ok res =>
        let max : Nat := if res_size = 8 then (2 ^ 64 - 1) + 1 else 1 <<< (res_size * 8)
        if res < max then .ok ⟨beBytes 8 (res % 2 ^ 64), res_size⟩
        else .error .Overflow

/-- The output loop of `encode`: emit each encoded block in full except the
one at index `full_block_count`, which is truncated to `last_block_size`
characters. -/
def emitBlocks (lbs fbc : Nat) : Nat → List (List Char) → List Char
  | _, [] => []
  | i, v :: rest => (if i = fbc then v.take lbs else v) ++ emitBlocks lbs fbc (i + 1) rest

/-- `encode`: chunk the bytes into 8-byte blocks, encode each block, and
concatenate, truncating the block at index `full_block_count` (the final
partial block, when the length is not a multiple of 8) to
`ENCODED_BLOCK_SIZES[len % 8]` characters. -/
def encode (data : List Nat) : Except Error (List Char) :=
  ((chunks FULL_BLOCK_SIZE data).mapM encode_block).map
    (fun blocks =>
      emitBlocks (ENCODED_BLOCK_SIZES.getD (data.length % FULL_BLOCK_SIZE) 0)
        (data.length / FULL_BLOCK_SIZE) 0 blocks)

/-- `decode`: chunk the string into 11-character blocks, decode each block,
and concatenate each block's significant bytes
(`&c.data[FULL_BLOCK_SIZE - c.size..]`). -/
def decode (data : List Char) : Except Error (List Nat) :=
  ((chunks FULL_ENCODED_BLOCK_SIZE data).mapM decode_block).map
    (fun blocks =>
      blocks.foldl (fun res c => res ++ c.data.drop (FULL_BLOCK_SIZE - c.size)) [])

/-- `encode_check`: append the first `CHECKSUM_SIZE` bytes of the digest of
the payload, then encode.  The digest (`tiny_keccak::Keccak::v256`, an
external dependency producing 32 bytes) is a parameter of this embedding, as
the specification prescribes for the checksum wrapper. -/
def encode_check (keccak : List Nat → List Nat) (data : List Nat) :
    Except Error (List Char) :=
  encode (data ++ (keccak data).take CHECKSUM_SIZE)

/-- `decode_check`: decode, split off the last `CHECKSUM_SIZE` bytes, and
compare them against the recomputed digest of the remaining payload.  The
source slices `&bytes[..len - CHECKSUM_SIZE]` with an unchecked `usize`
subtraction: when the decoded result is shorter than `CHECKSUM_SIZE` bytes
that subtraction underflows and the slicing panics; the panic is modelled as
`none`. -/
def decode_check (keccak : List Nat → List Nat) (data : List Char) :
    Option (Except Error (List Nat)) :=
  match decode data with
  | .error e => some (.error e)
  | .ok bytes =>
    if bytes.length < CHECKSUM_SIZE then none
    else
      let payload := bytes.take (bytes.length - CHECKSUM_SIZE)
      let checksum := bytes.drop (bytes.length - CHECKSUM_SIZE)
      if (keccak payload).take CHECKSUM_SIZE = checksum then some (.ok payload)
      else some (.error .InvalidChecksum)

/-! ### Basic facts about `position` -/

theorem position_eq_none {p : α → Prop} [DecidablePred p] :
    ∀ {l : List α}, (∀ x ∈ l, ¬ p x) → position p l = none
  | [], _ => rfl
  | x :: xs, h => by
    have hx : ¬ p x := h x (List.mem_cons_self x xs)
    have hxs : position p xs = none :=
      position_eq_none (fun y hy => h y (List.mem_cons_of_mem x hy))
    simp [position, hx, hxs]

theorem position_sound {p : α → Prop} [DecidablePred p] (d : α) :
    ∀ {l : List α} {i : Nat}, position p l = some i →
      i < l.length ∧ p (l.getD i d) := by
  intro l
  induction l with
  | nil => intro i h; simp [position] at h
  | cons x xs ih =>
    intro i h
    by_cases hx : p x
    · simp [position, hx] at h
      subst h
      simpa using hx
    · simp [position, hx] at h
      obtain ⟨j, hj, rfl⟩ := h
      obtain ⟨hlt, hp⟩ := ih hj
      exact ⟨by simpa using Nat.succ_lt_succ hlt, by simpa using hp⟩

theorem position_some_of_mem (p : α → Prop) [DecidablePred p] :
    ∀ {l : List α} {x : α}, x ∈ l → p x → ∃ i, position p l = some i := by
  intro l
  induction l with
  | nil => intro x hx; simp at hx
  | cons y ys ih =>
    intro x hx hp
    by_cases hy : p y
    · exact ⟨0, by simp [position, hy]⟩
    · rcases List.mem_cons.mp hx with rfl | hx'
      · exact absurd hp hy
      · obtain ⟨i, hi⟩ := ih hx' hp
        exact ⟨i + 1, by simp [position, hy, hi]⟩

/-! ### Basic facts about `chunks` -/

theorem chunksGo_nil (n : Nat) : ∀ fuel, chunksGo n fuel ([] : List α) = []
  | 0 => rfl
  | _ + 1 => rfl

theorem chunksGo_irrel (n : Nat) (hn : 0 < n) :
    ∀ (fuel fuel' : Nat) (l : List α), l.length ≤ fuel → l.length ≤ fuel' →
      chunksGo n fuel l = chunksGo n fuel' l := by
  intro fuel
  induction fuel with
  | zero =>
    intro fuel' l hl _
    have : l = [] := List.eq_nil_of_length_eq_zero (Nat.le_zero.mp hl)
    subst this
    rw [chunksGo_nil, chunksGo_nil]
  | succ f ih =>
    intro fuel' l hl hl'
    match l, fuel' with
    | [], fuel' => rw [chunksGo_nil, chunksGo_nil]
    | a :: as, 0 => simp at hl'
    | a :: as, f' + 1 =>
      show (a :: as).take n :: chunksGo n f ((a :: as).drop n)
          = (a :: as).take n :: chunksGo n f' ((a :: as).drop n)
      have hlen : ((a :: as).drop n).length = as.length + 1 - n := by
        simp [List.length_drop]
      simp only [List.length_cons] at hl hl'
      have h1 : ((a :: as).drop n).length ≤ f := by rw [hlen]; omega
      have h2 : ((a :: as).drop n).length ≤ f' := by rw [hlen]; omega
      rw [ih f' _ h1 h2]

theorem chunks_nil (n : Nat) : chunks n ([] : List α) = [] := rfl

theorem chunks_cons (n : Nat) (hn : 0 < n) (l : List α) (h : l ≠ []) :
    chunks n l = l.take n :: chunks n (l.drop n) := by
  obtain ⟨a, as, rfl⟩ := List.exists_cons_of_ne_nil h
  show chunksGo n (as.length + 1) (a :: as)
      = (a :: as).take n :: chunksGo n ((a :: as).drop n).length ((a :: as).drop n)
  show (a :: as).take n :: chunksGo n as.length ((a :: as).drop n)
      = (a :: as).take n :: chunksGo n ((a :: as).drop n).length ((a :: as).drop n)
  have hlen : ((a :: as).drop n).length = as.length + 1 - n := by
    simp [List.length_drop]
  rw [chunksGo_irrel n hn as.length ((a :: as).drop n).length _ (by rw [hlen]; omega)
    (Nat.le_refl _)]

/-! ### Decidable facts about the table and the alphabet -/

/-- Alphabet index of a character (digit value), defaulting to 0. -/
def charIdx (ch : Char) : Nat := (position (fun x => x = ch) BASE58_CHARS).getD 0

theorem table_position :
    ∀ n, n ≤ 8 →
      position (fun x => x = ENCODED_BLOCK_SIZES.getD n 0) ENCODED_BLOCK_SIZES
        = some n := by decide

theorem table_le_11 : ∀ n, n ≤ 8 → ENCODED_BLOCK_SIZES.getD n 0 ≤ 11 := by decide

theorem table_two_le : ∀ n, 1 ≤ n → n ≤ 8 → 2 ≤ ENCODED_BLOCK_SIZES.getD n 0 := by
  decide

theorem table_pow_le :
    ∀ n, n ≤ 8 → 2 ^ (8 * n) ≤ 58 ^ ENCODED_BLOCK_SIZES.getD n 0 := by decide

theorem table_pow_lt : ∀ k, k ≤ 11 → 58 ^ k < 2 ^ 128 := by decide

theorem table_eleven : ∀ n, n ≤ 8 → ENCODED_BLOCK_SIZES.getD n 0 = 11 → n = 8 := by
  decide

theorem max_eq :
    ∀ n, n ≤ 8 →
      (if n = 8 then (2 ^ 64 - 1) + 1 else 1 <<< (n * 8)) = 2 ^ (8 * n) := by decide

theorem alpha_getD_mem : ∀ d, d < 58 → BASE58_CHARS.getD d '1' ∈ BASE58_CHARS := by
  decide

theorem alpha_position_getD :
    ∀ d, d < 58 →
      position (fun x => x = BASE58_CHARS.getD d '1') BASE58_CHARS = some d := by
  decide

theorem alpha_mem_position :
    ∀ ch ∈ BASE58_CHARS,
      position (fun x => x = ch) BASE58_CHARS = some (charIdx ch) := by decide

theorem alpha_mem_lt : ∀ ch ∈ BASE58_CHARS, charIdx ch < 58 := by decide

theorem alpha_getD_charIdx :
    ∀ ch ∈ BASE58_CHARS, BASE58_CHARS.getD (charIdx ch) '1' = ch := by decide

theorem alpha_charIdx_getD : ∀ d, d < 58 → charIdx (BASE58_CHARS.getD d '1') = d := by
  decide

theorem position_of_not_mem {ch : Char} (h : ch ∉ BASE58_CHARS) :
    position (fun x => x = ch) BASE58_CHARS = none :=
  position_eq_none (fun _ hx hex => h (hex ▸ hx))

theorem getD_mem_of_lt {α : Type _} (d : α) :
    ∀ (l : List α) (i : Nat), i < l.length → l.getD i d ∈ l := by
  intro l
  induction l with
  | nil => intro i h; simp at h
  | cons x xs ih =>
    intro i h
    match i with
    | 0 => simp
    | j + 1 =>
      have h' : xs.getD j d ∈ xs := ih j (by simpa using Nat.lt_of_succ_lt_succ h)
      rw [List.getD_cons_succ]
      exact List.mem_cons_of_mem x h'

/-! ### Big-endian byte values -/

/-- The big-endian value of a byte list (reference value for `u8be_to_u64`
and `u64::to_be_bytes`). -/
def beVal (l : List Nat) : Nat := l.foldl (fun r b => r * 256 + b) 0

theorem beVal_append (l : List Nat) (b : Nat) :
    beVal (l ++ [b]) = beVal l * 256 + b := by
  simp [beVal, List.foldl_append]

theorem beVal_lt : ∀ (l : List Nat), (∀ b ∈ l, b < 256) → beVal l < 256 ^ l.length := by
  intro l
  induction l using List.reverseRecOn with
  | nil => intro _; simp [beVal]
  | append_singleton l b ih =>
    intro h
    have hb : b < 256 := h b (by simp)
    have hl : beVal l < 256 ^ l.length := ih (fun x hx => h x (by simp [hx]))
    rw [beVal_append]
    simp only [List.length_append, List.length_singleton]
    calc beVal l * 256 + b < (beVal l + 1) * 256 := by omega
    _ ≤ 256 ^ l.length * 256 := Nat.mul_le_mul_right _ hl
    _ = 256 ^ (l.length + 1) := by ring

theorem u8be_go :
    ∀ (l : List Nat) (res : Nat), (∀ b ∈ l, b < 256) →
      (res + 1) * 256 ^ l.length ≤ 2 ^ 64 →
      List.foldl (fun r b => ((r <<< 8) % 2 ^ 64) ||| b) res l
        = List.foldl (fun r b => r * 256 + b) res l := by
  intro l
  induction l with
  | nil => intro res _ _; rfl
  | cons b bs ih =>
    intro res hb hres
    simp only [List.length_cons] at hres
    have hblt : b < 256 := hb b (by simp)
    have h256le : (256 : Nat) ≤ 256 ^ (bs.length + 1) :=
      Nat.le_self_pow (Nat.succ_ne_zero _) 256
    have hr256 : (res + 1) * 256 ≤ 2 ^ 64 :=
      le_trans (Nat.mul_le_mul_left _ h256le) hres
    have hlt : res * 256 < 2 ^ 64 := by omega
    have hmod : (res <<< 8) % 2 ^ 64 = res * 256 := by
      rw [Nat.shiftLeft_eq]
      have h2 : res * 2 ^ 8 = res * 256 := by norm_num
      rw [h2, Nat.mod_eq_of_lt hlt]
    have hblt' : b < 2 ^ 8 := lt_of_lt_of_le hblt (by norm_num)
    have h28 : res * 256 = 2 ^ 8 * res := by norm_num [Nat.mul_comm]
    have hlor : res * 256 ||| b = res * 256 + b := by
      rw [h28]
      exact (Nat.mul_add_lt_is_or hblt' res).symm
    have hstep : (res * 256 + b + 1) * 256 ^ bs.length ≤ 2 ^ 64 := by
      have h1 : res * 256 + b + 1 ≤ (res + 1) * 256 := by omega
      calc (res * 256 + b + 1) * 256 ^ bs.length
          ≤ (res + 1) * 256 * 256 ^ bs.length := Nat.mul_le_mul_right _ h1
      _ = (res + 1) * 256 ^ (bs.length + 1) := by ring
      _ ≤ 2 ^ 64 := hres
    simp only [List.foldl_cons, hmod, hlor]
    exact ih (res * 256 + b) (fun x hx => hb x (by simp [hx])) hstep

theorem u8be_eq_beVal (l : List Nat) (h8 : l.length ≤ 8)
    (hb : ∀ b ∈ l, b < 256) : u8be_to_u64 l = beVal l := by
  have hpow : (256 : Nat) ^ l.length ≤ 2 ^ 64 := by
    calc (256 : Nat) ^ l.length ≤ 256 ^ 8 := Nat.pow_le_pow_right (by norm_num) h8
    _ = 2 ^ 64 := by norm_num
  have := u8be_go l 0 hb (by simpa using hpow)
  simpa [u8be_to_u64, beVal] using this

/-- Model of `u64::to_be_bytes` restricted facts. -/
theorem beBytes_length : ∀ (k n : Nat), (beBytes k n).length = k := by
  intro k
  induction k with
  | zero => intro n; rfl
  | succ j ih => intro n; simp [beBytes, ih]

theorem beBytes_lt : ∀ (k n : Nat), ∀ b ∈ beBytes k n, b < 256 := by
  intro k
  induction k with
  | zero => intro n b hb; simp [beBytes] at hb
  | succ j ih =>
    intro n b hb
    simp only [beBytes, List.mem_append, List.mem_singleton] at hb
    rcases hb with hb | rfl
    · exact ih _ b hb
    · exact Nat.mod_lt _ (by norm_num)

theorem beBytes_beVal :
    ∀ (l : List Nat), (∀ b ∈ l, b < 256) → beBytes l.length (beVal l) = l := by
  intro l
  induction l using List.reverseRecOn with
  | nil => intro _; rfl
  | append_singleton l b ih =>
    intro h
    have hb : b < 256 := h b (by simp)
    simp only [List.length_append, List.length_singleton, beVal_append]
    show beBytes (l.length + 1) (beVal l * 256 + b) = l ++ [b]
    have hdiv : (beVal l * 256 + b) / 256 = beVal l := by omega
    have hmodb : (beVal l * 256 + b) % 256 = b := by omega
    simp only [beBytes, hdiv, hmodb]
    rw [ih (fun x hx => h x (by simp [hx]))]

theorem beVal_beBytes : ∀ (k n : Nat), n < 256 ^ k → beVal (beBytes k n) = n := by
  intro k
  induction k with
  | zero => intro n h; interval_cases n; rfl
  | succ j ih =>
    intro n h
    have hdiv : n / 256 < 256 ^ j := by
      rw [Nat.div_lt_iff_lt_mul (by norm_num : (0:Nat) < 256)]
      calc n < 256 ^ (j + 1) := h
      _ = 256 ^ j * 256 := by ring
    simp only [beBytes, beVal_append, ih (n / 256) hdiv]
    omega

theorem beBytes_split :
    ∀ (b a n : Nat), beBytes (a + b) n = beBytes a (n / 256 ^ b) ++ beBytes b n := by
  intro b
  induction b with
  | zero => intro a n; simp [beBytes]
  | succ j ih =>
    intro a n
    have h1 : a + (j + 1) = (a + j) + 1 := by omega
    rw [h1]
    show beBytes (a + j) (n / 256) ++ [n % 256]
        = beBytes a (n / 256 ^ (j + 1)) ++ beBytes (j + 1) n
    rw [ih a (n / 256)]
    have h2 : n / 256 / 256 ^ j = n / 256 ^ (j + 1) := by
      rw [Nat.div_div_eq_div_mul]
      congr 1
      ring
    rw [h2]
    simp [beBytes]

theorem beBytes_drop (k n : Nat) (hk : k ≤ 8) :
    (beBytes 8 n).drop (8 - k) = beBytes k n := by
  have h8 : (8 - k) + k = 8 := by omega
  have hsplit := beBytes_split k (8 - k) n
  rw [h8] at hsplit
  rw [hsplit]
  exact List.drop_left' (beBytes_length _ _)

/-! ### Base58 digit strings -/

/-- The base58 value of a character list, each character contributing its
alphabet index. -/
def b58val (c : List Char) : Nat := c.foldl (fun acc ch => acc * 58 + charIdx ch) 0

theorem b58val_append (c : List Char) (ch : Char) :
    b58val (c ++ [ch]) = b58val c * 58 + charIdx ch := by
  simp [b58val, List.foldl_append]

theorem b58val_lt :
    ∀ (c : List Char), (∀ ch ∈ c, ch ∈ BASE58_CHARS) → b58val c < 58 ^ c.length := by
  intro c
  induction c using List.reverseRecOn with
  | nil => intro _; simp [b58val]
  | append_singleton c ch ih =>
    intro h
    have hch : charIdx ch < 58 := alpha_mem_lt ch (h ch (by simp))
    have hc : b58val c < 58 ^ c.length := ih (fun x hx => h x (by simp [hx]))
    rw [b58val_append]
    simp only [List.length_append, List.length_singleton]
    calc b58val c * 58 + charIdx ch < (b58val c + 1) * 58 := by omega
    _ ≤ 58 ^ c.length * 58 := Nat.mul_le_mul_right _ hc
    _ = 58 ^ (c.length + 1) := by ring

theorem b58digits_length : ∀ (k num : Nat), (b58digits num k).length = k := by
  intro k
  induction k with
  | zero => intro num; rfl
  | succ j ih => intro num; simp [b58digits, ih]

theorem b58digits_mem :
    ∀ (k num : Nat), ∀ ch ∈ b58digits num k, ch ∈ BASE58_CHARS := by
  intro k
  induction k with
  | zero => intro num ch h; simp [b58digits] at h
  | succ j ih =>
    intro num ch h
    simp only [b58digits, List.mem_append, List.mem_singleton] at h
    rcases h with h | rfl
    · exact ih _ ch h
    · exact alpha_getD_mem _ (Nat.mod_lt _ (by norm_num))

theorem b58val_digits : ∀ (k num : Nat), num < 58 ^ k → b58val (b58digits num k) = num := by
  intro k
  induction k with
  | zero => intro num h; interval_cases num; rfl
  | succ j ih =>
    intro num h
    have hdiv : num / 58 < 58 ^ j := by
      rw [Nat.div_lt_iff_lt_mul (by norm_num : (0:Nat) < 58)]
      calc num < 58 ^ (j + 1) := h
      _ = 58 ^ j * 58 := by ring
    have hmod : num % 58 < 58 := Nat.mod_lt _ (by norm_num)
    simp only [b58digits, b58val_append, ih (num / 58) hdiv,
      alpha_charIdx_getD (num % 58) hmod]
    omega

theorem b58digits_inv :
    ∀ (c : List Char), (∀ ch ∈ c, ch ∈ BASE58_CHARS) →
      b58digits (b58val c) c.length = c := by
  intro c
  induction c using List.reverseRecOn with
  | nil => intro _; rfl
  | append_singleton c ch ih =>
    intro h
    have hch : ch ∈ BASE58_CHARS := h ch (by simp)
    have hlt : charIdx ch < 58 := alpha_mem_lt ch hch
    simp only [List.length_append, List.length_singleton, b58val_append]
    show b58digits (b58val c * 58 + charIdx ch) (c.length + 1) = c ++ [ch]
    have hdiv : (b58val c * 58 + charIdx ch) / 58 = b58val c := by omega
    have hmod : (b58val c * 58 + charIdx ch) % 58 = charIdx ch := by omega
    simp only [b58digits, hdiv, hmod, alpha_getD_charIdx ch hch]
    rw [ih (fun x hx => h x (by simp [hx]))]

/-! ### The decode fold -/

theorem decodeDigits_spec :
    ∀ (c : List Char) (res order : Nat), (∀ ch ∈ c, ch ∈ BASE58_CHARS) →
      order * 58 ^ c.length < 2 ^ 128 →
      decodeDigits c.reverse res order = .ok (res + order * b58val c) := by
  intro c
  induction c using List.reverseRecOn with
  | nil => intro res order _ _; simp [decodeDigits, b58val]
  | append_singleton c ch ih =>
    intro res order h hord
    simp only [List.length_append, List.length_singleton] at hord
    have hch : ch ∈ BASE58_CHARS := h ch (by simp)
    have h58 : (58 : Nat) ≤ 58 ^ (c.length + 1) :=
      Nat.le_self_pow (Nat.succ_ne_zero _) 58
    have hord58 : order * 58 < 2 ^ 128 :=
      lt_of_le_of_lt (Nat.mul_le_mul_left _ h58) hord
    have hrev : (c ++ [ch]).reverse = ch :: c.reverse := by simp
    rw [hrev]
    simp only [decodeDigits, alpha_mem_position ch hch]
    rw [Nat.mod_eq_of_lt hord58]
    have hord' : (order * 58) * 58 ^ c.length < 2 ^ 128 := by
      calc (order * 58) * 58 ^ c.length = order * 58 ^ (c.length + 1) := by ring
      _ < 2 ^ 128 := hord
    rw [ih (res + order * charIdx ch) (order * 58)
      (fun x hx => h x (by simp [hx])) hord']
    rw [b58val_append]
    congr 1
    ring

theorem decodeDigits_bad :
    ∀ (l : List Char) (res order : Nat), (∃ ch ∈ l, ch ∉ BASE58_CHARS) →
      decodeDigits l res order = .error .InvalidSymbol := by
  intro l
  induction l with
  | nil => intro res order h; simp at h
  | cons c rest ih =>
    intro res order h
    by_cases hc : c ∈ BASE58_CHARS
    · obtain ⟨ch, hch, hbad⟩ := h
      have hch' : ch ∈ rest := by
        rcases List.mem_cons.mp hch with rfl | h'
        · exact absurd hc hbad
        · exact h'
      simp only [decodeDigits, alpha_mem_position c hc]
      exact ih _ _ ⟨ch, hch', hbad⟩
    · simp only [decodeDigits, position_of_not_mem hc]

theorem decodeDigits_ok_mem :
    ∀ (l : List Char) (res order r : Nat), decodeDigits l res order = .ok r →
      ∀ ch ∈ l, ch ∈ BASE58_CHARS := by
  intro l
  induction l with
  | nil => intro res order r _ ch hch; simp at hch
  | cons c rest ih =>
    intro res order r hok ch hch
    cases hpos : position (fun x => x = c) BASE58_CHARS with
    | none => simp [decodeDigits, hpos] at hok
    | some d =>
      have hcmem : c ∈ BASE58_CHARS := by
        obtain ⟨hd, hp⟩ := position_sound '1' hpos
        exact hp ▸ getD_mem_of_lt '1' BASE58_CHARS d hd
      rcases List.mem_cons.mp hch with rfl | hch'
      · exact hcmem
      · simp only [decodeDigits, hpos] at hok
        exact ih _ _ _ hok ch hch'

/-! ### Characterizing `decode_block` -/

theorem FEBS_eq : FULL_ENCODED_BLOCK_SIZE = 11 := rfl

theorem FBS_eq : FULL_BLOCK_SIZE = 8 := rfl

theorem decode_block_general (c : List Char) (n : Nat) (hn : n ≤ 8)
    (hlen : c.length = ENCODED_BLOCK_SIZES.getD n 0)
    (hval : ∀ ch ∈ c, ch ∈ BASE58_CHARS) :
    decode_block c = if 2 ^ (8 * n) ≤ b58val c then .error .Overflow
      else .ok ⟨beBytes 8 (b58val c), n⟩ := by
  have hle : c.length ≤ 11 := hlen ▸ table_le_11 n hn
  have hord : 1 * 58 ^ c.length < 2 ^ 128 := by
    simpa using table_pow_lt c.length hle
  have hvlt : b58val c < 58 ^ c.length := b58val_lt c hval
  rw [decode_block, FEBS_eq, if_neg (by omega), hlen, table_position n hn,
    decodeDigits_spec c 0 1 hval hord]
  simp only [Nat.zero_add, Nat.one_mul, max_eq n hn]
  by_cases hover : 2 ^ (8 * n) ≤ b58val c
  · rw [if_neg (by omega), if_pos hover]
  · have hlt64 : b58val c < 2 ^ 64 := by
      have : (2 : Nat) ^ (8 * n) ≤ 2 ^ 64 :=
        Nat.pow_le_pow_right (by norm_num) (by omega)
      omega
    rw [if_pos (by omega), if_neg hover, Nat.mod_eq_of_lt hlt64]

theorem decode_block_digits (n num : Nat) (hn : n ≤ 8)
    (hnum : num < 2 ^ (8 * n)) :
    decode_block (b58digits num (ENCODED_BLOCK_SIZES.getD n 0))
      = .ok ⟨beBytes 8 num, n⟩ := by
  have hnum58 : num < 58 ^ ENCODED_BLOCK_SIZES.getD n 0 :=
    lt_of_lt_of_le hnum (table_pow_le n hn)
  have hval := b58digits_mem (ENCODED_BLOCK_SIZES.getD n 0) num
  have hgen := decode_block_general (b58digits num (ENCODED_BLOCK_SIZES.getD n 0)) n hn
    (b58digits_length _ _) hval
  rw [b58val_digits _ num hnum58] at hgen
  rw [hgen, if_neg (by omega)]

theorem decode_block_ok (c : List Char) (blk : DecodedBlock)
    (h : decode_block c = .ok blk) :
    ∃ n, n ≤ 8 ∧ c.length = ENCODED_BLOCK_SIZES.getD n 0 ∧ blk.size = n ∧
      (∀ ch ∈ c, ch ∈ BASE58_CHARS) ∧ b58val c < 2 ^ (8 * n) ∧
      blk.data = beBytes 8 (b58val c) ∧ b58digits (b58val c) c.length = c := by
  rw [decode_block] at h
  by_cases hbig : FULL_ENCODED_BLOCK_SIZE < c.length
  · rw [if_pos hbig] at h; exact absurd h (by simp)
  rw [if_neg hbig] at h
  cases hpos : position (fun x => x = c.length) ENCODED_BLOCK_SIZES with
  | none => rw [hpos] at h; exact absurd h (by simp)
  | some res_size =>
    rw [hpos] at h
    obtain ⟨hsz, hp⟩ := position_sound 0 hpos
    have hn : res_size ≤ 8 := by
      have : ENCODED_BLOCK_SIZES.length = 9 := rfl
      omega
    have hlen : c.length = ENCODED_BLOCK_SIZES.getD res_size 0 := hp.symm
    cases hdig : decodeDigits c.reverse 0 1 with
    | error e => rw [hdig] at h; exact absurd h (by simp)
    | ok res =>
      rw [hdig] at h
      have hval : ∀ ch ∈ c, ch ∈ BASE58_CHARS := by
        intro ch hch
        exact decodeDigits_ok_mem c.reverse 0 1 res hdig ch
          (List.mem_reverse.mpr hch)
      have hle : c.length ≤ 11 := hlen ▸ table_le_11 res_size hn
      have hord : 1 * 58 ^ c.length < 2 ^ 128 := by
        simpa using table_pow_lt c.length hle
      have hres : res = b58val c := by
        have := decodeDigits_spec c 0 1 hval hord
        rw [hdig] at this
        simpa using this
      subst hres
      simp only [max_eq res_size hn] at h
      by_cases hover : b58val c < 2 ^ (8 * res_size)
      · rw [if_pos hover] at h
        have hlt64 : b58val c < 2 ^ 64 := by
          have : (2 : Nat) ^ (8 * res_size) ≤ 2 ^ 64 :=
            Nat.pow_le_pow_right (by norm_num) (by omega)
          omega
        rw [Nat.mod_eq_of_lt hlt64] at h
        have hblk : blk = ⟨beBytes 8 (b58val c), res_size⟩ := (Except.ok.inj h).symm
        exact ⟨res_size, hn, hlen, by rw [hblk], hval, hover, by rw [hblk],
          hlen ▸ b58digits_inv c hval⟩
      · rw [if_neg hover] at h; exact absurd h (by simp)

/-! ### Unfolding equations for `encode` and `decode` -/

theorem exceptMapM_cons {α β : Type _} (f : α → Except Error β) (a : α) (as : List α) :
    (a :: as).mapM f = (f a).bind (fun b => (as.mapM f).map (fun bs => b :: bs)) := by
  rw [List.mapM_cons]
  cases h : f a with
  | error e => rfl
  | ok b =>
    show as.mapM f >>= (fun bs => pure (b :: bs)) = _
    cases h2 : as.mapM f with
    | error e => rfl
    | ok bs => rfl

theorem foldl_append_init (g : DecodedBlock → List Nat) :
    ∀ (bs : List DecodedBlock) (acc : List Nat),
      bs.foldl (fun r c => r ++ g c) acc = acc ++ bs.foldl (fun r c => r ++ g c) [] := by
  intro bs
  induction bs with
  | nil => intro acc; simp
  | cons b rest ih =>
    intro acc
    rw [List.foldl_cons, List.foldl_cons, ih (acc ++ g b), ih ([] ++ g b)]
    simp

theorem decode_nil : decode [] = .ok [] := rfl

theorem decode_cons (s : List Char) (h : s ≠ []) :
    decode s = (decode_block (s.take 11)).bind
      (fun blk => (decode (s.drop 11)).map
        (fun rest => blk.data.drop (8 - blk.size) ++ rest)) := by
  rw [decode, decode, FEBS_eq, FBS_eq, chunks_cons 11 (by norm_num) s h,
    exceptMapM_cons]
  cases hblk : decode_block (s.take 11) with
  | error e => rfl
  | ok blk =>
    cases hrest : (chunks 11 (s.drop 11)).mapM decode_block with
    | error e => rfl
    | ok blocks =>
      show Except.ok ((blk :: blocks).foldl
          (fun r c => r ++ c.data.drop (8 - c.size)) []) = _
      rw [List.foldl_cons,
        foldl_append_init (fun c => c.data.drop (8 - c.size)) blocks]
      rfl

theorem emitBlocks_shift (lbs fbc : Nat) (h : 0 < fbc) :
    ∀ (bs : List (List Char)) (i : Nat),
      emitBlocks lbs fbc (i + 1) bs = emitBlocks lbs (fbc - 1) i bs := by
  intro bs
  induction bs with
  | nil => intro i; rfl
  | cons v rest ih =>
    intro i
    simp only [emitBlocks]
    by_cases hi : i + 1 = fbc
    · rw [if_pos hi, if_pos (by omega : i = fbc - 1), ih]
    · rw [if_neg hi, if_neg (by omega : ¬ i = fbc - 1), ih]

theorem encode_nil : encode [] = .ok [] := rfl

theorem encode_block_ok (data : List Nat) (h1 : data ≠ []) (h8 : data.length ≤ 8) :
    encode_block data
      = .ok (b58digits (u8be_to_u64 data) (ENCODED_BLOCK_SIZES.getD data.length 0)
          ++ List.replicate (11 - ENCODED_BLOCK_SIZES.getD data.length 0) '1') := by
  rw [encode_block, FBS_eq, if_neg (not_or.mpr ⟨h1, Nat.not_lt.mpr h8⟩), FEBS_eq]

theorem encode_small_lt (data : List Nat) (h1 : data ≠ []) (h8 : data.length < 8) :
    encode data = (encode_block data).map
      (fun v => v.take (ENCODED_BLOCK_SIZES.getD data.length 0)) := by
  have hchunks : chunks 8 data = [data] := by
    rw [chunks_cons 8 (by norm_num) data h1, List.take_of_length_le (by omega),
      List.drop_eq_nil_of_le (by omega), chunks_nil]
  rw [encode, FBS_eq, hchunks, Nat.mod_eq_of_lt h8, Nat.div_eq_of_lt h8,
    exceptMapM_cons]
  cases hb : encode_block data with
  | error e => rfl
  | ok b =>
    show Except.ok (emitBlocks (ENCODED_BLOCK_SIZES.getD data.length 0) 0 0 [b]) = _
    simp [emitBlocks, Except.map]

theorem encode_eight (data : List Nat) (h : data.length = 8) :
    encode data = encode_block data := by
  have h1 : data ≠ [] := by intro h0; rw [h0] at h; simp at h
  have hchunks : chunks 8 data = [data] := by
    rw [chunks_cons 8 (by norm_num) data h1, List.take_of_length_le (by omega),
      List.drop_eq_nil_of_le (by omega), chunks_nil]
  rw [encode, FBS_eq, hchunks, h, exceptMapM_cons]
  cases hb : encode_block data with
  | error e => rfl
  | ok b =>
    show Except.ok (emitBlocks (ENCODED_BLOCK_SIZES.getD (8 % 8) 0) (8 / 8) 0 [b]) = _
    simp [emitBlocks]

theorem encode_cons (data : List Nat) (h : 8 < data.length) :
    encode data = (encode_block (data.take 8)).bind
      (fun b => (encode (data.drop 8)).map (fun rest => b ++ rest)) := by
  have h1 : data ≠ [] := by intro h0; rw [h0] at h; simp at h
  have hdroplen : (data.drop 8).length = data.length - 8 := List.length_drop 8 data
  have hmod : (data.drop 8).length % 8 = data.length % 8 := by rw [hdroplen]; omega
  have hdiv : (data.drop 8).length / 8 = data.length / 8 - 1 := by rw [hdroplen]; omega
  have hfbc : 0 < data.length / 8 := by omega
  rw [encode, encode, FBS_eq, chunks_cons 8 (by norm_num) data h1, exceptMapM_cons,
    hmod, hdiv]
  cases hb : encode_block (data.take 8) with
  | error e => rfl
  | ok b =>
    cases hrest : (chunks 8 (data.drop 8)).mapM encode_block with
    | error e => rfl
    | ok blocks =>
      show Except.ok (emitBlocks (ENCODED_BLOCK_SIZES.getD (data.length % 8) 0)
          (data.length / 8) 0 (b :: blocks)) = _
      simp only [emitBlocks, if_neg (by omega : ¬ (0 : Nat) = data.length / 8)]
      rw [show (0 : Nat) + 1 = 1 from rfl,
        emitBlocks_shift _ _ hfbc blocks 0]
      rfl

theorem encode_ok_aux :
    ∀ (n : Nat) (data : List Nat), data.length ≤ n → ∃ s, encode data = .ok s := by
  intro n
  induction n with
  | zero =>
    intro data hlen
    have : data = [] := List.eq_nil_of_length_eq_zero (Nat.le_zero.mp hlen)
    exact ⟨[], by rw [this, encode_nil]⟩
  | succ m ih =>
    intro data hlen
    by_cases h0 : data = []
    · exact ⟨[], by rw [h0, encode_nil]⟩
    by_cases h8 : data.length ≤ 8
    · by_cases he : data.length = 8
      · exact ⟨_, by rw [encode_eight data he, encode_block_ok data h0 h8]⟩
      · have henc := encode_small_lt data h0 (by omega)
        rw [encode_block_ok data h0 h8] at henc
        exact ⟨_, henc⟩
    · have hlt : 8 < data.length := by omega
      have htlen : (data.take 8).length = 8 := by
        rw [List.length_take]; omega
      have htake : data.take 8 ≠ [] := by
        intro hx
        rw [hx] at htlen
        simp at htlen
      obtain ⟨rest, hrest⟩ := ih (data.drop 8) (by
        rw [List.length_drop]; omega)
      have henc := encode_cons data hlt
      rw [encode_block_ok (data.take 8) htake (by omega), hrest] at henc
      exact ⟨_, henc⟩

/-! ### Round trip: decode after encode -/

theorem pow256_eq (k : Nat) : (256 : Nat) ^ k = 2 ^ (8 * k) := by
  rw [Nat.pow_mul]

theorem encode_single (data : List Nat) (h1 : data ≠ []) (h8 : data.length ≤ 8) :
    encode data
      = .ok (b58digits (u8be_to_u64 data) (ENCODED_BLOCK_SIZES.getD data.length 0)) := by
  by_cases he : data.length = 8
  · rw [encode_eight data he, encode_block_ok data h1 h8, he]
    have hz : List.replicate (11 - ENCODED_BLOCK_SIZES.getD 8 0) '1' = ([] : List Char) :=
      rfl
    rw [hz, List.append_nil]
  · rw [encode_small_lt data h1 (by omega), encode_block_ok data h1 h8]
    show Except.ok ((b58digits _ _ ++ List.replicate _ '1').take _) = _
    rw [List.take_left' (b58digits_length _ _)]

theorem decode_of_single_block (data : List Nat) (h1 : data ≠ [])
    (h8 : data.length ≤ 8) (hb : ∀ b ∈ data, b < 256) :
    decode (b58digits (u8be_to_u64 data) (ENCODED_BLOCK_SIZES.getD data.length 0))
      = .ok data := by
  have hlen1 : 1 ≤ data.length := by
    cases data
    · exact absurd rfl h1
    · simp
  rw [u8be_eq_beVal data h8 hb]
  have hnum : beVal data < 2 ^ (8 * data.length) := by
    rw [← pow256_eq]
    exact beVal_lt data hb
  have hs_len : (b58digits (beVal data) (ENCODED_BLOCK_SIZES.getD data.length 0)).length
      = ENCODED_BLOCK_SIZES.getD data.length 0 := b58digits_length _ _
  have hl2 : 2 ≤ ENCODED_BLOCK_SIZES.getD data.length 0 := table_two_le _ hlen1 h8
  have hl11 : ENCODED_BLOCK_SIZES.getD data.length 0 ≤ 11 := table_le_11 _ h8
  have hne : b58digits (beVal data) (ENCODED_BLOCK_SIZES.getD data.length 0) ≠ [] := by
    intro hx
    rw [hx] at hs_len
    simp only [List.length_nil] at hs_len
    omega
  rw [decode_cons _ hne, List.take_of_length_le (by rw [hs_len]; omega),
    List.drop_eq_nil_of_le (by rw [hs_len]; omega), decode_nil,
    decode_block_digits data.length (beVal data) h8 hnum]
  show Except.ok ((beBytes 8 (beVal data)).drop (8 - data.length) ++ []) = _
  rw [beBytes_drop data.length _ h8, List.append_nil, beBytes_beVal data hb]

theorem decode_encode_aux :
    ∀ (n : Nat) (data : List Nat), data.length ≤ n → (∀ b ∈ data, b < 256) →
      ∀ s, encode data = .ok s → decode s = .ok data := by
  intro n
  induction n with
  | zero =>
    intro data hlen _ s hs
    have hdata : data = [] := List.eq_nil_of_length_eq_zero (Nat.le_zero.mp hlen)
    subst hdata
    rw [encode_nil] at hs
    cases hs
    exact decode_nil
  | succ m ih =>
    intro data hlen hb s hs
    by_cases h0 : data = []
    · subst h0
      rw [encode_nil] at hs
      cases hs
      exact decode_nil
    by_cases h8 : data.length ≤ 8
    · rw [encode_single data h0 h8] at hs
      cases hs
      exact decode_of_single_block data h0 h8 hb
    · have hlt : 8 < data.length := by omega
      have htlen : (data.take 8).length = 8 := by rw [List.length_take]; omega
      have htake8 : data.take 8 ≠ [] := by
        intro hx
        rw [hx] at htlen
        simp at htlen
      rw [encode_cons data hlt, encode_block_ok (data.take 8) htake8 (by omega),
        htlen] at hs
      have hpad : List.replicate (11 - ENCODED_BLOCK_SIZES.getD (8:Nat) 0) '1'
          = ([] : List Char) := rfl
      rw [hpad, List.append_nil] at hs
      cases henc : encode (data.drop 8) with
      | error e =>
        rw [henc] at hs
        exact absurd hs (by simp [Except.bind, Except.map])
      | ok rest =>
        rw [henc] at hs
        have hs' : Except.ok (α := List Char) (ε := Error)
            (b58digits (u8be_to_u64 (data.take 8)) (ENCODED_BLOCK_SIZES.getD 8 0)
              ++ rest) = .ok s := hs
        cases hs'
        have hnum8 : u8be_to_u64 (data.take 8) = beVal (data.take 8) :=
          u8be_eq_beVal _ (by omega) (fun x hx => hb x (List.take_subset 8 data hx))
        have hdig_len :
            (b58digits (u8be_to_u64 (data.take 8)) (ENCODED_BLOCK_SIZES.getD 8 0)).length
              = 11 := b58digits_length _ _
        have hsne : b58digits (u8be_to_u64 (data.take 8)) (ENCODED_BLOCK_SIZES.getD 8 0)
            ++ rest ≠ [] := by
          intro hx
          have := congrArg List.length hx
          simp only [List.length_append, List.length_nil, hdig_len] at this
          omega
        rw [decode_cons _ hsne, List.take_left' hdig_len, List.drop_left' hdig_len]
        have hval8 : beVal (data.take 8) < 2 ^ (8 * 8) := by
          have := beVal_lt (data.take 8)
            (fun x hx => hb x (List.take_subset 8 data hx))
          rw [htlen, pow256_eq] at this
          exact this
        rw [hnum8, decode_block_digits 8 (beVal (data.take 8)) (le_refl 8) hval8]
        have hrest : decode rest = .ok (data.drop 8) :=
          ih (data.drop 8) (by rw [List.length_drop]; omega)
            (fun x hx => hb x (List.drop_subset 8 data hx)) rest henc
        rw [show (Except.ok (⟨beBytes 8 (beVal (data.take 8)), 8⟩ : DecodedBlock)
            : Except Error DecodedBlock).bind
            (fun blk => (decode rest).map
              (fun r => blk.data.drop (8 - blk.size) ++ r))
          = (decode rest).map
              (fun r => (beBytes 8 (beVal (data.take 8))).drop (8 - 8) ++ r) from rfl]
        rw [hrest]
        show Except.ok ((beBytes 8 (beVal (data.take 8))).drop 0 ++ data.drop 8) = _
        rw [List.drop_zero]
        have hbytes : beBytes 8 (beVal (data.take 8)) = data.take 8 := by
          have := beBytes_beVal (data.take 8)
            (fun x hx => hb x (List.take_subset 8 data hx))
          rw [htlen] at this
          exact this
        rw [hbytes, List.take_append_drop]

/-! ### Canonicity: encode after decode -/

theorem decode_ok_ne_nil (s : List Char) (h : s ≠ []) (b : List Nat)
    (hd : decode s = .ok b) : b ≠ [] := by
  rw [decode_cons s h] at hd
  cases hblk : decode_block (s.take 11) with
  | error e => rw [hblk] at hd; exact absurd hd (by simp [Except.bind])
  | ok blk =>
    rw [hblk] at hd
    cases hrest : decode (s.drop 11) with
    | error e => rw [hrest] at hd; exact absurd hd (by simp [Except.bind, Except.map])
    | ok rest =>
      rw [hrest] at hd
      have hb : blk.data.drop (8 - blk.size) ++ rest = b := Except.ok.inj hd
      obtain ⟨k, hk8, hlenc, hsz, _, _, hdata, _⟩ := decode_block_ok _ _ hblk
      have hcne : s.take 11 ≠ [] := by
        intro hx
        have := congrArg List.length hx
        rw [List.length_take, List.length_nil] at this
        have hpos := List.length_pos.mpr h
        omega
      have hk1 : 1 ≤ k := by
        rcases Nat.eq_zero_or_pos k with rfl | hpos
        · rw [show ENCODED_BLOCK_SIZES.getD 0 0 = 0 from rfl] at hlenc
          have := List.length_pos.mpr hcne
          omega
        · exact hpos
      intro hbnil
      rw [hbnil] at hb
      have := congrArg List.length hb
      rw [List.length_append, List.length_drop, hdata, hsz, beBytes_length,
        List.length_nil] at this
      omega

theorem encode_decode_aux :
    ∀ (n : Nat) (s : List Char), s.length ≤ n →
      ∀ b, decode s = .ok b → encode b = .ok s := by
  intro n
  induction n with
  | zero =>
    intro s hlen b hd
    have hs : s = [] := List.eq_nil_of_length_eq_zero (Nat.le_zero.mp hlen)
    subst hs
    rw [decode_nil] at hd
    cases hd
    exact encode_nil
  | succ m ih =>
    intro s hlen b hd
    by_cases h0 : s = []
    · subst h0
      rw [decode_nil] at hd
      cases hd
      exact encode_nil
    rw [decode_cons s h0] at hd
    cases hblk : decode_block (s.take 11) with
    | error e => rw [hblk] at hd; exact absurd hd (by simp [Except.bind])
    | ok blk =>
      rw [hblk] at hd
      cases hrest : decode (s.drop 11) with
      | error e => rw [hrest] at hd; exact absurd hd (by simp [Except.bind, Except.map])
      | ok rest =>
        rw [hrest] at hd
        have hb : blk.data.drop (8 - blk.size) ++ rest = b := Except.ok.inj hd
        obtain ⟨k, hk8, hlenc, hsz, hval, hlt, hdata, hdig⟩ := decode_block_ok _ _ hblk
        have hbytes : blk.data.drop (8 - blk.size)
            = beBytes k (b58val (s.take 11)) := by
          rw [hdata, hsz, beBytes_drop k _ hk8]
        rw [hbytes] at hb
        have hcne : s.take 11 ≠ [] := by
          intro hx
          have := congrArg List.length hx
          rw [List.length_take, List.length_nil] at this
          have hpos := List.length_pos.mpr h0
          omega
        have hk1 : 1 ≤ k := by
          rcases Nat.eq_zero_or_pos k with rfl | hpos
          · rw [show ENCODED_BLOCK_SIZES.getD 0 0 = 0 from rfl] at hlenc
            have := List.length_pos.mpr hcne
            omega
          · exact hpos
        by_cases hrest_nil : s.drop 11 = []
        · rw [hrest_nil, decode_nil] at hrest
          cases hrest
          rw [List.append_nil] at hb
          subst hb
          have hs11 : s.length ≤ 11 := List.drop_eq_nil_iff.mp hrest_nil
          have hstake : s.take 11 = s := List.take_of_length_le hs11
          have hbne : beBytes k (b58val (s.take 11)) ≠ [] := by
            intro hx
            have := congrArg List.length hx
            rw [beBytes_length, List.length_nil] at this
            omega
          rw [encode_single _ hbne (by rw [beBytes_length]; exact hk8),
            beBytes_length]
          have hu : u8be_to_u64 (beBytes k (b58val (s.take 11)))
              = b58val (s.take 11) := by
            rw [u8be_eq_beVal _ (by rw [beBytes_length]; exact hk8) (beBytes_lt _ _)]
            exact beVal_beBytes k _ (by rw [pow256_eq]; exact hlt)
          rw [hu, ← hlenc, hdig, hstake]
        · have hs11 : 11 < s.length := by
            by_contra h'
            exact hrest_nil (List.drop_eq_nil_of_le (by omega))
          have hctake : (s.take 11).length = 11 := by
            rw [List.length_take]; omega
          have hkeq : k = 8 := table_eleven k hk8 (by rw [← hlenc, hctake])
          subst hkeq
          have hrest_ne : rest ≠ [] := decode_ok_ne_nil _ hrest_nil _ hrest
          have hblen8 : (beBytes 8 (b58val (s.take 11))).length = 8 :=
            beBytes_length _ _
          subst hb
          have hblen_gt :
              8 < (beBytes 8 (b58val (s.take 11)) ++ rest).length := by
            rw [List.length_append, hblen8]
            have := List.length_pos.mpr hrest_ne
            omega
          rw [encode_cons _ hblen_gt, List.take_left' hblen8, List.drop_left' hblen8]
          have hbne : beBytes 8 (b58val (s.take 11)) ≠ [] := by
            intro hx
            have hln := congrArg List.length hx
            rw [hblen8, List.length_nil] at hln
            omega
          rw [encode_block_ok _ hbne (by rw [hblen8]), hblen8]
          have hu : u8be_to_u64 (beBytes 8 (b58val (s.take 11)))
              = b58val (s.take 11) := by
            rw [u8be_eq_beVal _ (by rw [hblen8]) (beBytes_lt _ _)]
            exact beVal_beBytes 8 _ (by rw [pow256_eq]; exact hlt)
          have hpad : List.replicate (11 - ENCODED_BLOCK_SIZES.getD (8:Nat) 0) '1'
              = ([] : List Char) := rfl
          rw [hu, hpad, List.append_nil]
          have hdig11 : b58digits (b58val (s.take 11)) (ENCODED_BLOCK_SIZES.getD 8 0)
              = s.take 11 := by
            have h11 : ENCODED_BLOCK_SIZES.getD (8:Nat) 0 = (s.take 11).length := by
              rw [hctake]
              decide
            rw [h11, hdig]
          rw [hdig11]
          have hrec : encode rest = .ok (s.drop 11) :=
            ih (s.drop 11) (by rw [List.length_drop]; omega) rest hrest
          rw [hrec]
          show Except.ok (s.take 11 ++ s.drop 11) = _
          rw [List.take_append_drop]

/-! ### Failure propagation through `decode` -/

theorem decode_block_not_table (c : List Char) (h : c.length ∉ ENCODED_BLOCK_SIZES) :
    decode_block c = .error .InvalidBlockSize := by
  rw [decode_block]
  by_cases h11 : FULL_ENCODED_BLOCK_SIZE < c.length
  · rw [if_pos h11]
  · rw [if_neg h11]
    have hnone : position (fun x => x = c.length) ENCODED_BLOCK_SIZES = none := by
      apply position_eq_none
      intro x hx hex
      exact h (hex ▸ hx)
    rw [hnone]

theorem decode_block_sym (c : List Char) (hmem : c.length ∈ ENCODED_BLOCK_SIZES)
    (hbad : ∃ ch ∈ c, ch ∉ BASE58_CHARS) :
    decode_block c = .error .InvalidSymbol := by
  have hle : ∀ x ∈ ENCODED_BLOCK_SIZES, x ≤ 11 := by decide
  have h11 : c.length ≤ 11 := hle _ hmem
  rw [decode_block, FEBS_eq, if_neg (by omega)]
  obtain ⟨i, hi⟩ := position_some_of_mem (fun x => x = c.length) hmem rfl
  rw [hi]
  obtain ⟨ch, hch, hnm⟩ := hbad
  rw [decodeDigits_bad c.reverse 0 1 ⟨ch, List.mem_reverse.mpr hch, hnm⟩]

theorem decode_block_err_of_bad (c : List Char)
    (hbad : ∃ ch ∈ c, ch ∉ BASE58_CHARS) : ∃ e, decode_block c = .error e := by
  by_cases hmem : c.length ∈ ENCODED_BLOCK_SIZES
  · exact ⟨_, decode_block_sym c hmem hbad⟩
  · exact ⟨_, decode_block_not_table c hmem⟩

theorem exists_chunk_of_mem {α : Type _} (n : Nat) (hn : 0 < n) :
    ∀ (fuel : Nat) (s : List α), s.length ≤ fuel →
      ∀ x ∈ s, ∃ c ∈ chunks n s, x ∈ c := by
  intro fuel
  induction fuel with
  | zero =>
    intro s hlen x hx
    have : s = [] := List.eq_nil_of_length_eq_zero (Nat.le_zero.mp hlen)
    subst this
    simp at hx
  | succ m ih =>
    intro s hlen x hx
    have h0 : s ≠ [] := by
      intro hs
      subst hs
      simp at hx
    rw [chunks_cons n hn s h0]
    have hx' : x ∈ s.take n ++ s.drop n := by rw [List.take_append_drop]; exact hx
    rcases List.mem_append.mp hx' with h | h
    · exact ⟨s.take n, List.mem_cons_self _ _, h⟩
    · obtain ⟨c, hc, hxc⟩ := ih (s.drop n) (by rw [List.length_drop]; omega) x h
      exact ⟨c, List.mem_cons_of_mem _ hc, hxc⟩

theorem mapM_error_of_mem :
    ∀ (cs : List (List Char)), (∃ c ∈ cs, ∃ e, decode_block c = .error e) →
      ∃ e, cs.mapM decode_block = .error e := by
  intro cs
  induction cs with
  | nil => intro h; simp at h
  | cons c cs' ih =>
    intro h
    cases hc : decode_block c with
    | error e => exact ⟨e, by rw [exceptMapM_cons, hc]; rfl⟩
    | ok blk =>
      obtain ⟨c', hc', e', he'⟩ := h
      have hc'' : c' ∈ cs' := by
        rcases List.mem_cons.mp hc' with rfl | h'
        · rw [hc] at he'; exact absurd he' (by simp)
        · exact h'
      obtain ⟨e, he⟩ := ih ⟨c', hc'', e', he'⟩
      exact ⟨e, by rw [exceptMapM_cons, hc, he]; rfl⟩

theorem decode_error_of_mapM (s : List Char) (e : Error)
    (h : (chunks 11 s).mapM decode_block = .error e) : decode s = .error e := by
  rw [decode, FEBS_eq, h]
  rfl

theorem mapM_pre_error :
    ∀ (pre : List (List Char)) (badc : List Char) (post : List (List Char)),
      (∀ c ∈ pre, ∃ d, decode_block c = .ok d) →
      decode_block badc = .error .InvalidSymbol →
      (pre ++ badc :: post).mapM decode_block = .error .InvalidSymbol := by
  intro pre
  induction pre with
  | nil =>
    intro badc post _ hbad
    rw [List.nil_append, exceptMapM_cons, hbad]
    rfl
  | cons c pre' ih =>
    intro badc post hpre hbad
    obtain ⟨d, hd⟩ := hpre c (List.mem_cons_self _ _)
    rw [List.cons_append, exceptMapM_cons, hd,
      ih badc post (fun x hx => hpre x (List.mem_cons_of_mem _ hx)) hbad]
    rfl

theorem c6_aux :
    ∀ (n : Nat) (s : List Char), s.length ≤ n →
      (s.length % 11 = 1 ∨ s.length % 11 = 4 ∨ s.length % 11 = 8) →
      (∃ e, decode s = .error e) ∧
      ((∀ c ∈ chunks 11 s, c.length = 11 → ∃ d, decode_block c = .ok d) →
        decode s = .error .InvalidBlockSize) := by
  intro n
  induction n with
  | zero =>
    intro s hlen h
    have : s = [] := List.eq_nil_of_length_eq_zero (Nat.le_zero.mp hlen)
    subst this
    rcases h with h | h | h <;> simp at h
  | succ m ih =>
    intro s hlen h
    have h0 : s ≠ [] := by
      intro hx
      subst hx
      rcases h with h | h | h <;> simp at h
    by_cases hle : s.length ≤ 11
    · have hlen_mem : s.length = 1 ∨ s.length = 4 ∨ s.length = 8 := by
        rcases h with h | h | h <;> omega
      have hnotin : s.length ∉ ENCODED_BLOCK_SIZES := by
        rcases hlen_mem with h' | h' | h' <;> rw [h'] <;> decide
      have hblk : decode_block (s.take 11) = .error .InvalidBlockSize := by
        rw [List.take_of_length_le hle]
        exact decode_block_not_table s hnotin
      have hdec : decode s = .error .InvalidBlockSize := by
        rw [decode_cons s h0, hblk]
        rfl
      exact ⟨⟨_, hdec⟩, fun _ => hdec⟩
    · have hlt : 11 < s.length := by omega
      have hih := ih (s.drop 11) (by rw [List.length_drop]; omega)
        (by rw [List.length_drop]; rcases h with h | h | h <;> omega)
      constructor
      · cases hblk : decode_block (s.take 11) with
        | error e => exact ⟨e, by rw [decode_cons s h0, hblk]; rfl⟩
        | ok blk =>
          obtain ⟨e, he⟩ := hih.1
          exact ⟨e, by rw [decode_cons s h0, hblk, he]; rfl⟩
      · intro hall
        obtain ⟨d, hd⟩ : ∃ d, decode_block (s.take 11) = .ok d := by
          apply hall
          · rw [chunks_cons 11 (by norm_num) s h0]
            exact List.mem_cons_self _ _
          · rw [List.length_take]; omega
        have htail : decode (s.drop 11) = .error .InvalidBlockSize := by
          apply hih.2
          intro c hc hc11
          exact hall c
            (by rw [chunks_cons 11 (by norm_num) s h0]
                exact List.mem_cons_of_mem _ hc) hc11
        rw [decode_cons s h0, hd, htail]
        rfl

/-! ### Checksum wrapper -/

theorem CS_eq : CHECKSUM_SIZE = 4 := rfl

theorem decode_check_of_decode_ok (keccak : List Nat → List Nat) (s : List Char)
    (bytes : List Nat) (h : decode s = .ok bytes) (h4 : ¬ bytes.length < 4) :
    decode_check keccak s
      = if (keccak (bytes.take (bytes.length - 4))).take 4
            = bytes.drop (bytes.length - 4)
        then some (.ok (bytes.take (bytes.length - 4)))
        else some (.error .InvalidChecksum) := by
  rw [decode_check, CS_eq, h]
  dsimp only
  rw [if_neg h4]

/-! ### Claims -/

/-- C1: for every byte sequence `b`, `decode (encode b)` succeeds and returns
exactly `b` (byte-for-byte round trip through the chunked block encoder and
decoder). -/
theorem claim_c1 (data : List Nat) (h : ∀ b ∈ data, b < 256) :
    ∃ s, encode data = .ok s ∧ decode s = .ok data := by
  obtain ⟨s, hs⟩ := encode_ok_aux data.length data (le_refl _)
  exact ⟨s, hs, decode_encode_aux data.length data (le_refl _) h s hs⟩

theorem claim_c1_witness :
    (∀ b ∈ ([255, 0, 1, 2, 3, 4, 5, 6, 254] : List Nat), b < 256) ∧
    ∃ s, encode [255, 0, 1, 2, 3, 4, 5, 6, 254] = .ok s
      ∧ decode s = .ok [255, 0, 1, 2, 3, 4, 5, 6, 254] :=
  ⟨by decide, claim_c1 [255, 0, 1, 2, 3, 4, 5, 6, 254] (by decide)⟩

/-- C2: for every byte sequence `b`, `decode_check (encode_check b)` succeeds
and returns exactly `b`: appending the first 4 bytes of the digest before
encoding and verifying them after decoding round-trips the payload.  The
digest (Keccak-256 in the source, via the external `tiny_keccak` crate) is a
parameter producing at least `CHECKSUM_SIZE` bytes. -/
theorem claim_c2 (keccak : List Nat → List Nat) (data : List Nat)
    (hdata : ∀ b ∈ data, b < 256)
    (hlen : CHECKSUM_SIZE ≤ (keccak data).length)
    (hsum : ∀ b ∈ (keccak data).take CHECKSUM_SIZE, b < 256) :
    ∃ s, encode_check keccak data = .ok s
      ∧ decode_check keccak s = some (.ok data) := by
  rw [CS_eq] at hlen hsum
  have hall : ∀ b ∈ data ++ (keccak data).take 4, b < 256 := by
    intro b hb
    rcases List.mem_append.mp hb with h | h
    · exact hdata b h
    · exact hsum b h
  obtain ⟨s, hs⟩ := encode_ok_aux (data ++ (keccak data).take 4).length _ (le_refl _)
  have hdec : decode s = .ok (data ++ (keccak data).take 4) :=
    decode_encode_aux _ _ (le_refl _) hall s hs
  have htklen : ((keccak data).take 4).length = 4 := by
    rw [List.length_take]
    omega
  have hblen : (data ++ (keccak data).take 4).length = data.length + 4 := by
    rw [List.length_append, htklen]
  refine ⟨s, ?_, ?_⟩
  · rw [encode_check, CS_eq]
    exact hs
  · rw [decode_check_of_decode_ok keccak s _ hdec (by omega)]
    have htake : (data ++ (keccak data).take 4).take
        ((data ++ (keccak data).take 4).length - 4) = data :=
      List.take_left' (by omega)
    have hdrop : (data ++ (keccak data).take 4).drop
        ((data ++ (keccak data).take 4).length - 4) = (keccak data).take 4 :=
      List.drop_left' (by omega)
    rw [htake, hdrop, if_pos rfl]

theorem claim_c2_witness :
    ∃ s, encode_check (fun _ => List.range 32) [1, 2, 255] = .ok s
      ∧ decode_check (fun _ => List.range 32) s = some (.ok [1, 2, 255]) :=
  claim_c2 (fun _ => List.range 32) [1, 2, 255] (by decide) (by decide) (by decide)

/-- C3: for every string `s` such that `decode s = .ok b`, `encode b = .ok s`:
decode accepts only the canonical encodings produced by encode. -/
theorem claim_c3 (s : List Char) (b : List Nat) (h : decode s = .ok b) :
    encode b = .ok s :=
  encode_decode_aux s.length s (le_refl _) b h

theorem claim_c3_witness :
    decode ['5', 'Q'] = .ok [255] ∧ encode [255] = .ok ['5', 'Q'] :=
  ⟨by decide, claim_c3 ['5', 'Q'] [255] (by decide)⟩

/-- C4: for every encoded block whose length is a table value and whose
characters are all alphabet members, `decode_block` fails with `Overflow` iff
the accumulated base58 value is at least `2 ^ (8 * width)` (this is `2 ^ 64`
when `width = 8`); in particular decoding "5R" fails with `Overflow` while
decoding "5Q" succeeds as the single byte `0xFF`. -/
theorem claim_c4 (c : List Char) (n : Nat) (hn : n ≤ 8)
    (hlen : c.length = ENCODED_BLOCK_SIZES.getD n 0)
    (hval : ∀ ch ∈ c, ch ∈ BASE58_CHARS) :
    (decode_block c = .error .Overflow ↔ 2 ^ (8 * n) ≤ b58val c)
      ∧ decode_block ['5', 'R'] = .error .Overflow
      ∧ decode_block ['5', 'Q'] = .ok ⟨[0, 0, 0, 0, 0, 0, 0, 255], 1⟩ := by
  refine ⟨?_, by decide, by decide⟩
  rw [decode_block_general c n hn hlen hval]
  constructor
  · intro h
    by_cases hover : 2 ^ (8 * n) ≤ b58val c
    · exact hover
    · rw [if_neg hover] at h
      exact absurd h (by simp)
  · intro h
    rw [if_pos h]

theorem claim_c4_witness :
    decode_block ['5', 'R'] = .error .Overflow ∧ 2 ^ (8 * 1) ≤ b58val ['5', 'R'] :=
  ⟨(claim_c4 ['5', 'R'] 1 (by decide) (by decide) (by decide)).1.mpr (by decide),
    by decide⟩

/-- C5: `decode_check` on an input whose base58 decoding succeeds with fewer
than `CHECKSUM_SIZE` bytes.  The slice `&bytes[..len - CHECKSUM_SIZE]` is
evaluated with an unchecked `usize` subtraction, so such inputs panic
(modelled as `none`) rather than returning an error: the empty string
decodes to 0 bytes and "5Q" decodes to 1 byte, and both make `decode_check`
panic, for every digest function. -/
theorem claim_c5_bug :
    decode ([] : List Char) = .ok [] ∧ decode ['5', 'Q'] = .ok [255]
      ∧ ∀ keccak : List Nat → List Nat,
          decode_check keccak [] = none ∧ decode_check keccak ['5', 'Q'] = none :=
  ⟨by decide, by decide, fun _ => ⟨rfl, rfl⟩⟩

/-- C6 (amended): for every string whose length mod 11 is 1, 4 or 8, `decode`
fails; the error is `InvalidBlockSize` whenever every full 11-character chunk
decodes successfully (an earlier chunk's own failure otherwise takes
precedence). -/
theorem claim_c6 (s : List Char)
    (h : s.length % 11 = 1 ∨ s.length % 11 = 4 ∨ s.length % 11 = 8) :
    (∃ e, decode s = .error e) ∧
    ((∀ c ∈ chunks 11 s, c.length = 11 → ∃ d, decode_block c = .ok d) →
      decode s = .error .InvalidBlockSize) :=
  c6_aux s.length s (le_refl _) h

theorem claim_c6_counterexample :
    (List.replicate 12 '0').length % 11 = 1
      ∧ decode (List.replicate 12 '0') = .error .InvalidSymbol
      ∧ decode (List.replicate 12 '0') ≠ .error .InvalidBlockSize := by decide

theorem claim_c6_witness : decode ['1'] = .error .InvalidBlockSize := by
  apply (claim_c6 ['1'] (by decide)).2
  intro c hc hlen
  have hch : chunks 11 ['1'] = [['1']] := rfl
  rw [hch] at hc
  have hc' : c = ['1'] := by simpa using hc
  rw [hc'] at hlen
  simp at hlen

/-- C7 (amended): for every string containing one of the characters 0, O, I,
l, `decode` fails; the error is `InvalidSymbol` whenever the chunk holding
such a character has a valid block length and every chunk before it decodes
successfully (otherwise a chunk-length violation or an earlier chunk's
failure takes precedence). -/
theorem claim_c7 (s : List Char)
    (hbad : ∃ ch ∈ s, ch = '0' ∨ ch = 'O' ∨ ch = 'I' ∨ ch = 'l') :
    (∃ e, decode s = .error e) ∧
    (∀ (pre : List (List Char)) (badc : List Char) (post : List (List Char)),
      chunks 11 s = pre ++ badc :: post →
      (∀ c ∈ pre, ∃ d, decode_block c = .ok d) →
      (∃ ch ∈ badc, ch = '0' ∨ ch = 'O' ∨ ch = 'I' ∨ ch = 'l') →
      badc.length ∈ ENCODED_BLOCK_SIZES →
      decode s = .error .InvalidSymbol) := by
  have hforb : ∀ ch : Char, (ch = '0' ∨ ch = 'O' ∨ ch = 'I' ∨ ch = 'l') →
      ch ∉ BASE58_CHARS := by
    intro ch h
    rcases h with rfl | rfl | rfl | rfl <;> decide
  constructor
  · obtain ⟨ch, hch, hf⟩ := hbad
    obtain ⟨c, hc, hchc⟩ :=
      exists_chunk_of_mem 11 (by norm_num) s.length s (le_refl _) ch hch
    obtain ⟨e, he⟩ := decode_block_err_of_bad c ⟨ch, hchc, hforb ch hf⟩
    obtain ⟨e', he'⟩ := mapM_error_of_mem (chunks 11 s) ⟨c, hc, e, he⟩
    exact ⟨e', decode_error_of_mapM s e' he'⟩
  · intro pre badc post hsplit hpre hbadc hblen
    obtain ⟨ch, hch, hf⟩ := hbadc
    have hsym : decode_block badc = .error .InvalidSymbol :=
      decode_block_sym badc hblen ⟨ch, hch, hforb ch hf⟩
    have hmap := mapM_pre_error pre badc post hpre hsym
    rw [← hsplit] at hmap
    exact decode_error_of_mapM s _ hmap

theorem claim_c7_counterexample :
    ('0' ∈ ['0']) ∧ decode ['0'] = .error .InvalidBlockSize
      ∧ decode ['0'] ≠ .error .InvalidSymbol := by decide

theorem claim_c7_witness :
    (∃ e, decode ['1', '0'] = .error e)
      ∧ decode ['1', '0'] = .error .InvalidSymbol := by
  have h := claim_c7 ['1', '0'] ⟨'0', by decide, by decide⟩
  refine ⟨h.1, ?_⟩
  apply h.2 [] ['1', '0'] []
  · rfl
  · intro c hc
    simp at hc
  · exact ⟨'0', by decide, by decide⟩
  · decide

/-- C8: `encode` returns `Ok` on every byte sequence: the chunking only ever
passes `encode_block` slices of length `1..=8`, so the `InvalidBlockSize`
branch is unreachable and `encode_block` has no other error path. -/
theorem claim_c8 (data : List Nat) : ∃ s, encode data = .ok s :=
  encode_ok_aux data.length data (le_refl _)

theorem claim_c8_witness : ∃ s, encode [0, 255, 7] = .ok s := claim_c8 [0, 255, 7]

/-- C9: the hand-written equality on the error type compares the I/O-wrapping
variant by kind only: any two `Io` values compare equal regardless of the
wrapped causes, while distinct non-`Io` kinds compare unequal. -/
theorem claim_c9 (a b : Nat) (e₁ e₂ : Error)
    (h₁ : ∀ c, e₁ ≠ .Io c) (h₂ : ∀ c, e₂ ≠ .Io c) (hne : e₁ ≠ e₂) :
    errorEq (.Io a) (.Io b) = true ∧ errorEq e₁ e₂ = false := by
  refine ⟨rfl, ?_⟩
  cases e₁ <;> cases e₂ <;>
    first
      | exact absurd rfl hne
      | exact absurd rfl (h₁ _)
      | exact absurd rfl (h₂ _)
      | rfl

theorem claim_c9_witness :
    errorEq (.Io 0) (.Io 1) = true
      ∧ errorEq .InvalidBlockSize .Overflow = false :=
  claim_c9 0 1 .InvalidBlockSize .Overflow
    (fun _ h => Error.noConfusion h) (fun _ h => Error.noConfusion h)
    (fun h => Error.noConfusion h)

/-- C10: in `decode_block` the block-length check precedes the
alphabet-membership check: every chunk whose length is not a table value is
rejected with `InvalidBlockSize`, even when it contains characters outside
the alphabet; in particular the 1-character chunk "0" yields
`InvalidBlockSize`, not `InvalidSymbol`. -/
theorem claim_c10 (c : List Char) (h : c.length ∉ ENCODED_BLOCK_SIZES) :
    decode_block c = .error .InvalidBlockSize
      ∧ decode_block ['0'] = .error .InvalidBlockSize
      ∧ decode_block ['0'] ≠ .error .InvalidSymbol :=
  ⟨decode_block_not_table c h, by decide, by decide⟩

theorem claim_c10_witness :
    decode_block ['z', 'z', 'z', 'z'] = .error .InvalidBlockSize :=
  (claim_c10 ['z', 'z', 'z', 'z'] (by decide)).1

end Base58
